import Mathlib

/-!
Verification of the zsm session-manager core (Rust) against its
natural-language specification.  The Rust source is shallowly embedded:
strings are lists of Unicode scalar values (`Str`), byte lengths are
computed through the UTF-8 size of each scalar, and operations that can
panic in Rust (`String::truncate` off a character boundary) return
`Option`, with `none` standing for the panic.
-/

namespace Zsm

/-- A Rust `String`/`&str`, modelled as its list of Unicode scalar values
(well-formed UTF-8 is assumed, as Rust guarantees). -/
abbrev Str := List Char

/-- Number of bytes of the UTF-8 encoding of one scalar value. -/
def utf8Len (c : Char) : Nat :=
  if c.toNat < 0x80 then 1
  else if c.toNat < 0x800 then 2
  else if c.toNat < 0x10000 then 3
  else 4

/-- Rust `str::len`: the length in bytes of the UTF-8 encoding. -/
def byteLen (s : Str) : Nat := (s.map utf8Len).sum

/-- Rust `str::split` on a character predicate: splits at every matching
character, keeping empty parts (so the result is always nonempty). -/
def splitOnPredC (p : Char → Bool) : Str → List Str
  | [] => [[]]
  | a :: t =>
    if p a then [] :: splitOnPredC p t
    else
      match splitOnPredC p t with
      | [] => [[a]]
      | s :: rest => (a :: s) :: rest

/-- Rust `str::split(c)` for a single character. -/
def splitChar (c : Char) (s : Str) : List Str := splitOnPredC (fun x => decide (x = c)) s

/-- Rust `[String]::join(sep)` / `Vec<&str>::join`. -/
def joinSep (sep : Str) : List Str → Str
  | [] => []
  | [s] => s
  | s :: t :: r => s ++ sep ++ joinSep sep (t :: r)

/-- The slice `xs[xs.len().saturating_sub(k)..]`: the last `k` elements
(all of them when `k` exceeds the length). -/
def takeLast (xs : List Str) (k : Nat) : List Str := xs.drop (xs.length - k)

/-- Rust `String::truncate s n`: a no-op when `n` is at least the byte
length, shortens to exactly `n` bytes when `n` is a character boundary,
and panics (modelled as `none`) otherwise. -/
def truncGo : Str → Nat → Option Str
  | _, 0 => some []
  | [], _ + 1 => some []
  | c :: cs, n + 1 =>
    if utf8Len c ≤ n + 1 then (truncGo cs (n + 1 - utf8Len c)).map (fun t => c :: t)
    else none

/-- See `truncGo`; this is the entry point mirroring `String::truncate`. -/
def truncateRust (s : Str) (n : Nat) : Option Str :=
  if byteLen s ≤ n then some s else truncGo s n

/-- The numeric value of a string of ASCII digits. -/
def digitsToNat (s : Str) : Nat := s.foldl (fun a c => a * 10 + (c.toNat - '0'.toNat)) 0

/-- Rust `str::parse::<u32>()`: an optional leading `+`, then one or more
ASCII digits, value below `2 ^ 32`; everything else is an error. -/
def parseU32 (s : Str) : Option Nat :=
  let digits := match s with
    | '+' :: t => t
    | t => t
  if digits = [] then none
  else if digits.all (fun c => c.isDigit) then
    if digitsToNat digits < 2 ^ 32 then some (digitsToNat digits) else none
  else none

/-- Rust `format!("{}", n)` for an unsigned integer. -/
def natToStr (n : Nat) : Str := Nat.toDigits 10 n

/-- Boolean membership test `l.iter().any(|y| y == x)`. -/
def memStr (x : Str) (l : List Str) : Bool := l.any (fun y => decide (y = x))

/-- Rust byte-lexicographic order on strings (`Ord for String`), which on
well-formed UTF-8 agrees with scalar-value lexicographic order. -/
def strLtB : Str → Str → Bool
  | [], [] => false
  | [], _ :: _ => true
  | _ :: _, [] => false
  | a :: s, b :: t =>
    if a.toNat < b.toNat then true
    else if b.toNat < a.toNat then false
    else strLtB s t

/-- ASCII whitespace recognizer used to model Rust `str::trim`.  Rust
trims the Unicode White_Space class; only its ASCII members appear in
ranking-source output, so only those are modelled. -/
def isWs (c : Char) : Bool :=
  decide (c = ' ') || decide (c = '\t') || decide (c = '\n') || decide (c = '\r') ||
    decide (c = Char.ofNat 0x0b) || decide (c = Char.ofNat 0x0c)

/-- Rust `str::trim` (see `isWs` for the whitespace class modelled). -/
def trimStr (s : Str) : Str := ((s.dropWhile isWs).reverse.dropWhile isWs).reverse

/-- Rust `char::is_alphabetic`, modelled exactly on ASCII.  The full
Unicode Alphabetic table is not embedded; no theorem below depends on a
non-ASCII letter reaching this predicate. -/
def isAlphabetic (c : Char) : Bool := c.isAlpha

/-- Plugin configuration (src/config.rs, fields used by the core). -/
structure Config where
  session_separator : Str
  base_paths : List Str
  show_resurrectable_sessions : Bool
deriving DecidableEq

/-- The default configuration from `Config::default`. -/
def defaultConfig : Config :=
  { session_separator := ['.'], base_paths := [], show_resurrectable_sessions := false }

/-- src/zoxide/directory.rs `ZoxideDirectory`.  The `f64` ranking is
modelled as a rational: the program only parses decimal literals into it
and compares values, so ordering on the represented decimals is what
matters; NaN/infinity inputs and double rounding are not modelled. -/
structure ZoxideDirectory where
  ranking : ℚ
  directory : Str
  session_name : Str
deriving DecidableEq

instance : Inhabited ZoxideDirectory := ⟨⟨0, [], []⟩⟩

/-- The fields of `zellij_tile::SessionInfo` read by the core. -/
structure SessionInfo where
  name : Str
  is_current_session : Bool
deriving DecidableEq

/-- src/session/types.rs `SessionItem` (durations as abstract numbers). -/
inductive SessionItem where
  | existingSession (name : Str) (directory : Str) (is_current : Bool)
  | resurrectableSession (name : Str) (duration : Nat)
  | directory (path : Str) (session_name : Str)
deriving DecidableEq

/-- Trailing-slash removal `base_path.trim_end_matches('/')`. -/
def trimEndSlashes (s : Str) : Str := (s.reverse.dropWhile (fun c => decide (c = '/'))).reverse

/-- src/main.rs `normalize_path`.  Note the source mixes units when
probing the character after the prefix: `path.chars().nth(i)` indexes
characters while `normalized_base.len()` counts bytes; the model keeps
that mixed indexing. -/
def normalizePath (basePaths : List Str) (path : Str) : Str :=
  if basePaths = [] then path
  else
    let best := basePaths.foldl
      (fun (acc : Option Str × Nat) bp =>
        let nb := trimEndSlashes bp
        if nb.isPrefixOf path ∧
            (byteLen path = byteLen nb ∨ (path.drop (byteLen nb)).head? = some '/') then
          if byteLen nb > acc.2 then (some bp, byteLen nb) else acc
        else acc)
      (none, 0)
    match best.1 with
    | none => path
    | some bp =>
      let nb := trimEndSlashes bp
      if path = nb then path
      else
        let stripped := path.drop nb.length
        let stripped2 := if stripped.head? = some '/' then stripped.tail else stripped
        if stripped2 ≠ [] then stripped2 else path

/-- Rust `Path::file_name().unwrap_or_default()` on Unix paths: the last
normal component, ignoring trailing slashes and `.` components; empty
when the path has no components or ends in `..`. -/
def fileName (p : Str) : Str :=
  let segs := (splitChar '/' p).filter (fun s => decide (s ≠ []) && decide (s ≠ ['.']))
  match segs.getLast? with
  | none => []
  | some s => if s = ['.', '.'] then [] else s

/-- Rust `Path::components` on Unix paths, as a root flag plus the
normal/`..` components.  A leading `./` (kept distinct by std) is not
distinguished; the program only feeds absolute paths or their stripped
suffixes through this. -/
def pathComponents (p : Str) : Bool × List Str :=
  (decide (p.head? = some '/'),
    (splitChar '/' p).filter (fun s => decide (s ≠ []) && decide (s ≠ ['.'])))

/-- Rust `Path::starts_with`: whole-component prefix, root included. -/
def pathStartsWith (p q : Str) : Bool :=
  let cp := pathComponents p
  let cq := pathComponents q
  (decide (cq.1 = true) → decide (cp.1 = cq.1)) && cq.2.isPrefixOf cp.2

/-- The `/`-separated nonempty segments of the normalized path, as built
at the top of `generate_context_aware_name`. -/
def segsOf (cfg : Config) (path : Str) : List Str :=
  (splitChar '/' (normalizePath cfg.base_paths path)).filter (fun s => decide (s ≠ []))

/-- src/main.rs `is_nested_in_zoxide_directories`. -/
def isNestedIn (cfg : Config) (path : Str) (allDirs : List ZoxideDirectory) : Bool :=
  allDirs.any (fun d =>
    decide (d.directory ≠ path) &&
      pathStartsWith (normalizePath cfg.base_paths path) (normalizePath cfg.base_paths d.directory))

/-- One pass of the conflict check in `generate_context_aware_name`:
the candidate built from the last `k` segments of `path` collides with
no conflict-set member (members shorter than `k` segments are skipped,
as is the member equal to `path` itself). -/
def isUniqueAt (cfg : Config) (dirs : List ZoxideDirectory) (conflictIdx : List Nat)
    (path : Str) (k : Nat) : Bool :=
  conflictIdx.all (fun m =>
    let cp := (dirs.getD m default).directory
    decide (cp = path) ||
      (let cs := segsOf cfg cp
       decide (cs.length < k) ||
         decide (joinSep cfg.session_separator (takeLast cs k) ≠
           joinSep cfg.session_separator (takeLast (segsOf cfg path) k))))

/-- The `required_segments` value after the context-search loop of
`generate_context_aware_name`: the first context length in
`[required0, segment count]` whose candidate name is unique, or the
starting value `required0` when the loop finds none. -/
def acceptedK (cfg : Config) (dirs : List ZoxideDirectory) (conflictIdx : List Nat)
    (path : Str) : Nat :=
  let segs := segsOf cfg path
  let req0 := if isNestedIn cfg path dirs then min 3 segs.length else 1
  match (List.range' req0 (segs.length + 1 - req0)).find?
      (fun k => isUniqueAt cfg dirs conflictIdx path k) with
  | some k => k
  | none => req0

/-- The consonant branch of `abbreviate_segment`: first character, then
subsequent alphabetic characters until three bytes are accumulated. -/
def abbrevLoop : Str → Str → Str
  | acc, [] => acc
  | acc, c :: t =>
    if byteLen acc ≥ 3 then acc
    else if isAlphabetic c then abbrevLoop (acc ++ [c]) t
    else abbrevLoop acc t

/-- src/main.rs `abbreviate_segment`. -/
def abbreviateSegment (seg : Str) : Str :=
  if byteLen seg ≤ 3 then seg
  else
    let hyphenated :=
      if seg.any (fun c => decide (c = '-') || decide (c = '_')) then
        let parts := splitOnPredC (fun c => decide (c = '-') || decide (c = '_')) seg
        if parts.length > 1 then
          some (joinSep ['-'] (parts.map (fun p => [p.headD 'x'])))
        else none
      else none
    match hyphenated with
    | some r => r
    | none =>
      if seg.length > 3 then
        match seg with
        | [] => seg
        | c0 :: rest =>
          let ab := abbrevLoop [c0] rest
          if byteLen ab < 2 ∧ seg.length > 1 then ab ++ [rest.headD c0] else ab
      else seg

/-- The `while current_length > max_length && len > 1` loop of
`apply_smart_truncation`: drop segments from the left while the joined
name is over budget and more than one segment remains. -/
def removeLeftLoop (sep : Str) : List Str → List Str
  | [] => []
  | [s] => [s]
  | a :: b :: t =>
    if byteLen (joinSep sep (a :: b :: t)) > 29 then removeLeftLoop sep (b :: t)
    else a :: b :: t

/-- The leftward-extension loop of `apply_smart_truncation`: while the
joined name is strictly under budget and the cursor is above index 0,
abbreviate the segment at the cursor and prepend it when it fits. -/
def extendLeft (sep : Str) (segments : List Str) : Nat → List Str → List Str
  | 0, acc => acc
  | li + 1, acc =>
    if byteLen (joinSep sep acc) < 29 then
      let ab := abbreviateSegment (segments.getD (li + 1) [])
      if byteLen (joinSep sep (ab :: acc)) ≤ 29 then extendLeft sep segments li (ab :: acc)
      else acc
    else acc

/-- Everything of `apply_smart_truncation` before its final safety
check: seed with the minimal right-anchored segments, abbreviate/drop
from the left when over budget (hard-truncating a lone segment, which
can panic), then greedily extend to the left. -/
def truncCore (sep : Str) (segments : List Str) (minSegments : Nat) : Option (List Str) :=
  let result0 := takeLast segments minSegments
  let rs1 : Option (List Str) :=
    if byteLen (joinSep sep result0) > 29 then
      let abbr := result0.map abbreviateSegment
      let dropped := removeLeftLoop sep abbr
      match dropped with
      | [s] =>
        if byteLen (joinSep sep [s]) > 29 then (truncateRust s 29).map (fun t => [t])
        else some [s]
      | other => some other
    else some result0
  match rs1 with
  | none => none
  | some rs => some (extendLeft sep segments (segments.length - (minSegments + 1)) rs)

/-- src/main.rs `apply_smart_truncation`.  `none` models the panic of
`String::truncate` off a character boundary. -/
def applySmartTruncation (sep : Str) (segments : List Str) (minSegments : Nat) : Option Str :=
  match truncCore sep segments minSegments with
  | none => none
  | some finalSegs =>
    let f := joinSep sep finalSegs
    if byteLen f > 29 then truncateRust f 29 else some f

/-- src/main.rs `generate_context_aware_name`.  `conflictIdx` indexes
`dirs` exactly as the Rust `conflict_indices` slice does; `none` models
a panic inside the truncation step. -/
def generateContextAwareName (cfg : Config) (path : Str) (dirs : List ZoxideDirectory)
    (conflictIdx : List Nat) : Option Str :=
  let segs := segsOf cfg path
  if segs = [] then some ['r', 'o', 'o', 't']
  else
    let req := acceptedK cfg dirs conflictIdx path
    let req2 :=
      if isNestedIn cfg path dirs ∧ req < 2 then min 2 segs.length else req
    let name := joinSep cfg.session_separator (takeLast segs req2)
    if byteLen name > 29 then applySmartTruncation cfg.session_separator segs req2
    else some name

/-- The indices sharing candidate `i`'s basename: the group in which
`generate_smart_session_names` places index `i`.  The Rust code builds
these groups in a `HashMap` whose iteration order is arbitrary; the
names assigned depend only on the candidates' paths, never on names
assigned to other groups, so per-index evaluation is faithful. -/
def groupIndices (dirs : List ZoxideDirectory) (i : Nat) : List Nat :=
  (List.range dirs.length).filter
    (fun j => decide (fileName (dirs.getD j default).directory =
      fileName (dirs.getD i default).directory))

/-- The session name `generate_smart_session_names` assigns to candidate
`i`: the bare basename for a unique non-nested basename, and the
context-aware name for basename conflicts and nested directories. -/
def resolvedName (cfg : Config) (dirs : List ZoxideDirectory) (i : Nat) : Option Str :=
  let path := (dirs.getD i default).directory
  let g := groupIndices dirs i
  if g.length = 1 then
    if isNestedIn cfg path dirs then generateContextAwareName cfg path dirs g
    else some (fileName path)
  else generateContextAwareName cfg path dirs g

/-- Splits a line at its first space, Rust `splitn(2, ' ')` with two
parts; `none` when the line contains no space (one part only). -/
def splitFirstSpace : Str → Option (Str × Str)
  | [] => none
  | c :: t =>
    if c = ' ' then some ([], t)
    else (splitFirstSpace t).map (fun r => (c :: r.1, r.2))

/-- Decimal literal parsing for the ranking score: optional sign, then
digits with an optional fractional part, at least one digit in all.
Rust parses this field as `f64`; exponent, infinity and NaN forms and
double rounding are not modelled (the program only ever compares the
parsed values). -/
def parseScore (s : Str) : Option ℚ :=
  let core : Str → Option ℚ := fun t =>
    let intPart := t.takeWhile (fun c => c.isDigit)
    let restPart := t.drop intPart.length
    let digitsVal : Str → ℚ := fun ds =>
      ((ds.foldl (fun a c => a * 10 + (c.toNat - '0'.toNat)) 0 : Nat) : ℚ)
    match restPart with
    | [] => if intPart = [] then none else some (digitsVal intPart)
    | '.' :: frac =>
      if frac.all (fun c => c.isDigit) ∧ (intPart ≠ [] ∨ frac ≠ []) then
        some (digitsVal intPart + digitsVal frac / ((10 : ℚ) ^ frac.length))
      else none
    | _ => none
  match s with
  | '+' :: t => core t
  | '-' :: t => (core t).map (fun q => -q)
  | t => core t

/-- The line loop of `process_zoxide_output`: trim each line, skip blank
ones, split score from path at the first space, and silently drop lines
whose score does not parse. -/
def parseZoxideOutput (out : Str) : List ZoxideDirectory :=
  (splitChar '\n' out).filterMap (fun line =>
    let l := trimStr line
    if l = [] then none
    else
      match splitFirstSpace l with
      | none => none
      | some (scoreStr, path) =>
        match parseScore scoreStr with
        | none => none
        | some q => some { ranking := q, directory := path, session_name := [] })

/-- src/main.rs `generate_smart_session_names` over a whole candidate
list: every index receives its resolved name (`none` when any naming
call panics). -/
def assignSmartNames (cfg : Config) (dirs : List ZoxideDirectory) :
    Option (List ZoxideDirectory) :=
  ((List.range dirs.length).mapM (fun i => resolvedName cfg dirs i)).map
    (fun names => dirs.zipWith (fun d n => { d with session_name := n }) names)

/-- One insertion step of the ranking sort: place `d` before the first
element whose ranking is at most `d`'s.  This is the unique stable
descending order produced by Rust's stable
`sort_by(|a, b| b.ranking.partial_cmp(&a.ranking))`. -/
def insertRanked (d : ZoxideDirectory) : List ZoxideDirectory → List ZoxideDirectory
  | [] => [d]
  | e :: t => if d.ranking < e.ranking then e :: insertRanked d t else d :: e :: t

/-- The stable descending sort of `process_zoxide_output`. -/
def sortByRanking : List ZoxideDirectory → List ZoxideDirectory
  | [] => []
  | d :: t => insertRanked d (sortByRanking t)

/-- src/main.rs `process_zoxide_output`: parse, assign smart names, then
sort by ranking descending (stable). -/
def processZoxideOutput (cfg : Config) (out : Str) : Option (List ZoxideDirectory) :=
  (assignSmartNames cfg (parseZoxideOutput out)).map sortByRanking

/-- src/state.rs `is_incremented_session`.  The byte-index slices of the
source fall on character boundaries because they are taken only after
the corresponding prefix checks succeed. -/
def isIncrementedSession (sep : Str) (session_name base_name : Str) : Bool :=
  if byteLen session_name ≤ byteLen base_name then false
  else if ¬ base_name.isPrefixOf session_name then false
  else
    let remainder := session_name.drop base_name.length
    if ¬ sep.isPrefixOf remainder then false
    else
      let numberPart := remainder.drop sep.length
      (parseU32 numberPart).isSome && decide (numberPart ≠ [])

/-- src/state.rs `combined_items`: matching live sessions first (first
matching candidate wins), then matching resurrectable sessions when
configured, then one `Directory` item per candidate, unconditionally. -/
def combinedItems (cfg : Config) (sessions : List SessionInfo)
    (resurrectable : List (Str × Nat)) (dirs : List ZoxideDirectory) : List SessionItem :=
  (sessions.filterMap (fun s =>
    (dirs.find? (fun zd => decide (s.name = zd.session_name) ||
        isIncrementedSession cfg.session_separator s.name zd.session_name)).map
      (fun zd => SessionItem.existingSession s.name zd.directory s.is_current_session)))
  ++ (if cfg.show_resurrectable_sessions then
        resurrectable.filterMap (fun r =>
          (dirs.find? (fun zd => decide (r.1 = zd.session_name) ||
              isIncrementedSession cfg.session_separator r.1 zd.session_name)).map
            (fun _ => SessionItem.resurrectableSession r.1 r.2))
      else [])
  ++ dirs.map (fun d => SessionItem.directory d.directory d.session_name)

/-- src/session/manager.rs `generate_incremented_name`.  Sessions and
resurrectable sessions enter by name.  The random-hex fallback taken
when all 999 numeric suffixes are in use is nondeterministic and is
modelled as `none`. -/
def generateIncrementedName (sep : Str) (sessionNames resurrectableNames : List Str)
    (base : Str) : Option Str :=
  let baseExists := memStr base sessionNames || memStr base resurrectableNames
  if ¬ baseExists then some base
  else
    match (List.range' 2 999).find?
        (fun n => ! memStr (base ++ sep ++ natToStr n) sessionNames) with
    | some n => some (base ++ sep ++ natToStr n)
    | none => none

/-- src/zoxide/search.rs `SearchEngine::move_selection_up` as a function
of the result-list length and the selection. -/
def seMoveUp (len : Nat) (sel : Option Nat) : Option Nat :=
  match sel with
  | some s => some (if s = 0 then len - 1 else s - 1)
  | none => if len ≠ 0 then some (len - 1) else none

/-- src/zoxide/search.rs `SearchEngine::move_selection_down`. -/
def seMoveDown (len : Nat) (sel : Option Nat) : Option Nat :=
  match sel with
  | some s => some (if s = len - 1 then 0 else s + 1)
  | none => if len ≠ 0 then some 0 else none

/-- src/state.rs `PluginState::move_selection_up` in its non-searching
branch, as a function of the display-list length and the selection. -/
def psMoveUp (len : Nat) (sel : Option Nat) : Option Nat :=
  if len = 0 then sel
  else
    match sel with
    | some s => some (if s = 0 then len - 1 else s - 1)
    | none => some (len - 1)

/-- src/state.rs `PluginState::move_selection_down`, non-searching. -/
def psMoveDown (len : Nat) (sel : Option Nat) : Option Nat :=
  if len = 0 then sel
  else
    match sel with
    | some s => some (if s = len - 1 then 0 else s + 1)
    | none => some 0

/-- Shorthand turning a Lean string literal into the `Str` model. -/
def strL (s : String) : Str := s.toList

/-- Is this unified item a `Directory` item? -/
def isDirectoryItem : SessionItem → Bool
  | .directory _ _ => true
  | _ => false

section BasicLemmas

theorem byteLen_append (a b : Str) : byteLen (a ++ b) = byteLen a + byteLen b := by
  simp [byteLen]

theorem one_le_utf8Len (c : Char) : 1 ≤ utf8Len c := by
  unfold utf8Len
  split <;> [skip; split <;> [skip; split]] <;> omega

theorem byteLen_pos (s : Str) (h : s ≠ []) : 0 < byteLen s := by
  match s, h with
  | c :: t, _ =>
    have := one_le_utf8Len c
    simp [byteLen]
    omega

theorem truncGo_byteLen_le (s : Str) (n : Nat) (t : Str) (h : truncGo s n = some t) :
    byteLen t ≤ n := by
  induction s generalizing n t with
  | nil =>
    cases n <;> simp [truncGo] at h <;> subst h <;> simp [byteLen]
  | cons c cs ih =>
    cases n with
    | zero => simp [truncGo] at h; subst h; simp [byteLen]
    | succ m =>
      simp only [truncGo] at h
      split at h
      · rcases Option.map_eq_some'.mp h with ⟨t', ht', rfl⟩
        have := ih _ _ ht'
        have hc : utf8Len c ≤ m + 1 := by assumption
        simp [byteLen] at this ⊢
        omega
      · exact absurd h (by simp)

theorem truncateRust_byteLen_le (s : Str) (n : Nat) (t : Str) (h : truncateRust s n = some t) :
    byteLen t ≤ n := by
  unfold truncateRust at h
  split at h
  · cases h; assumption
  · exact truncGo_byteLen_le s n t h

theorem joinSep_cons_byteLen_le (sep : Str) (a : Str) (t : List Str) :
    byteLen (joinSep sep t) ≤ byteLen (joinSep sep (a :: t)) := by
  cases t with
  | nil => simp [joinSep, byteLen]
  | cons b r => simp [joinSep, byteLen_append]; omega

theorem byteLen_joinSep_drop_le (sep : Str) (l : List Str) (n : Nat) :
    byteLen (joinSep sep (l.drop n)) ≤ byteLen (joinSep sep l) := by
  induction l generalizing n with
  | nil => simp
  | cons a t ih =>
    cases n with
    | zero => simp
    | succ m =>
      calc byteLen (joinSep sep ((a :: t).drop (m + 1)))
          = byteLen (joinSep sep (t.drop m)) := by simp
        _ ≤ byteLen (joinSep sep t) := ih m
        _ ≤ byteLen (joinSep sep (a :: t)) := joinSep_cons_byteLen_le sep a t

end BasicLemmas

section TruncationBound

theorem applySmartTruncation_byteLen_le (sep : Str) (segments : List Str) (minSegments : Nat)
    (r : Str) (h : applySmartTruncation sep segments minSegments = some r) :
    byteLen r ≤ 29 := by
  unfold applySmartTruncation at h
  rcases hc : truncCore sep segments minSegments with _ | fs
  · rw [hc] at h; exact absurd h (by simp)
  · rw [hc] at h
    simp only at h
    split at h
    · exact truncateRust_byteLen_le _ _ _ h
    · cases h; omega

/-- C1 (amended): every name produced through the context-aware naming
path (`generate_context_aware_name`), when it returns without a panic,
is at most 29 bytes long. -/
theorem c1_length_bound_context_path (cfg : Config) (path : Str)
    (dirs : List ZoxideDirectory) (conflictIdx : List Nat) (name : Str)
    (h : generateContextAwareName cfg path dirs conflictIdx = some name) :
    byteLen name ≤ 29 := by
  unfold generateContextAwareName at h
  dsimp only at h
  split at h
  · cases h; decide
  · split at h <;> split at h <;>
      first
        | exact applySmartTruncation_byteLen_le _ _ _ _ h
        | (cases h; omega)

/-- Witness for `c1_length_bound_context_path` at the single candidate
path `/x`, whose context-aware name is `x`. -/
theorem c1_length_bound_context_path_witness :
    generateContextAwareName defaultConfig (strL "/x") [] [] = some (strL "x") ∧
      byteLen (strL "x") ≤ 29 :=
  ⟨by decide, c1_length_bound_context_path defaultConfig (strL "/x") [] [] (strL "x") (by decide)⟩

/-- C1 (counterexample): a candidate whose basename is unique and not
nested bypasses the length budget entirely; a 30-byte basename yields a
30-byte `session_name`, contradicting the claimed bound of 29 bytes for
all resolver outputs. -/
theorem c1_counterexample :
    resolvedName defaultConfig [⟨1, '/' :: List.replicate 30 'a', []⟩] 0 =
        some (List.replicate 30 'a') ∧
      29 < byteLen (List.replicate 30 'a') := by
  constructor <;> decide

end TruncationBound

section Normalizer

/-- C4 (amended): with an empty configured base-path set, `normalize_path`
returns every path unchanged; no home-directory stripping takes place. -/
theorem c4_empty_base_paths_identity (path : Str) : normalizePath [] path = path := by
  simp [normalizePath]

/-- C4 (counterexample): for a path under a home directory such as
`/home/alice`, the claim requires the home prefix to be stripped when no
base paths are configured, yielding `code`; the code returns the path
unchanged. -/
theorem c4_counterexample :
    normalizePath [] (strL "/home/alice/code") = strL "/home/alice/code" ∧
      normalizePath [] (strL "/home/alice/code") ≠ strL "code" := by
  constructor <;> decide

end Normalizer

section SelectionMovement

/-- C8: on a nonempty active list, both selection-movement
implementations (the search engine's and the plugin state's) select the
last index on `move_up` from an unset selection, index 0 on `move_down`
from an unset selection, and wrap around at both ends. -/
theorem c8_selection_wraparound (len : Nat) (h : 0 < len) :
    (seMoveUp len none = some (len - 1) ∧ seMoveDown len none = some 0 ∧
      seMoveUp len (some 0) = some (len - 1) ∧ seMoveDown len (some (len - 1)) = some 0) ∧
    (psMoveUp len none = some (len - 1) ∧ psMoveDown len none = some 0 ∧
      psMoveUp len (some 0) = some (len - 1) ∧ psMoveDown len (some (len - 1)) = some 0) := by
  have hne : len ≠ 0 := Nat.pos_iff_ne_zero.mp h
  simp [seMoveUp, seMoveDown, psMoveUp, psMoveDown, hne]

/-- Witness for `c8_selection_wraparound`: the specification's 3-item
scenario, with no prior selection `move_up` selects index 2, and from
index 2 `move_down` selects index 0, in both implementations. -/
theorem c8_selection_wraparound_witness :
    0 < 3 ∧ seMoveUp 3 none = some 2 ∧ seMoveDown 3 (some 2) = some 0 ∧
      psMoveUp 3 none = some 2 ∧ psMoveDown 3 (some 2) = some 0 :=
  ⟨by decide, (c8_selection_wraparound 3 (by decide)).1.1,
    (c8_selection_wraparound 3 (by decide)).1.2.2.2,
    (c8_selection_wraparound 3 (by decide)).2.1,
    (c8_selection_wraparound 3 (by decide)).2.2.2.2⟩

end SelectionMovement

section Reconciliation

/-- C5: the unified list contains exactly one `Directory` item per input
candidate — its `Directory` sublist is precisely the candidate list
mapped to `Directory` items, no matter which sessions matched. -/
theorem c5_directory_items_per_candidate (cfg : Config) (sessions : List SessionInfo)
    (resurrectable : List (Str × Nat)) (dirs : List ZoxideDirectory) :
    (combinedItems cfg sessions resurrectable dirs).filter isDirectoryItem =
      dirs.map (fun d => SessionItem.directory d.directory d.session_name) := by
  unfold combinedItems
  rw [List.filter_append, List.filter_append]
  have h1 : ∀ (l : List SessionItem), (∀ a ∈ l, isDirectoryItem a = false) →
      l.filter isDirectoryItem = [] := by
    intro l hl
    rw [List.filter_eq_nil_iff]
    intro a ha
    simp [hl a ha]
  have hs : (sessions.filterMap (fun s =>
      (dirs.find? (fun zd => decide (s.name = zd.session_name) ||
          isIncrementedSession cfg.session_separator s.name zd.session_name)).map
        (fun zd => SessionItem.existingSession s.name zd.directory
          s.is_current_session))).filter isDirectoryItem = [] := by
    apply h1
    intro a ha
    rcases List.mem_filterMap.mp ha with ⟨s, _, hf⟩
    rcases Option.map_eq_some'.mp hf with ⟨zd, _, rfl⟩
    rfl
  have hr : ((if cfg.show_resurrectable_sessions then
      resurrectable.filterMap (fun r =>
        (dirs.find? (fun zd => decide (r.1 = zd.session_name) ||
            isIncrementedSession cfg.session_separator r.1 zd.session_name)).map
          (fun _ => SessionItem.resurrectableSession r.1 r.2))
      else [])).filter isDirectoryItem = [] := by
    apply h1
    intro a ha
    split at ha
    · rcases List.mem_filterMap.mp ha with ⟨r, _, hf⟩
      rcases Option.map_eq_some'.mp hf with ⟨zd, _, rfl⟩
      rfl
    · exact absurd ha (List.not_mem_nil a)
  have hd : (dirs.map (fun d =>
      SessionItem.directory d.directory d.session_name)).filter isDirectoryItem =
      dirs.map (fun d => SessionItem.directory d.directory d.session_name) := by
    apply List.filter_eq_self.mpr
    intro a ha
    rcases List.mem_map.mp ha with ⟨d, _, rfl⟩
    rfl
  rw [hs, hr, hd]
  simp

/-- C10: a session (live or recoverable) whose name neither equals nor is
an incremented form of any candidate's `session_name` contributes no
item at all to the unified list. -/
theorem c10_unmatched_sessions_omitted (cfg : Config) (sessions : List SessionInfo)
    (resurrectable : List (Str × Nat)) (dirs : List ZoxideDirectory) (name : Str)
    (hnm : ∀ zd ∈ dirs, name ≠ zd.session_name ∧
      isIncrementedSession cfg.session_separator name zd.session_name = false) :
    (∀ d c, SessionItem.existingSession name d c ∉
        combinedItems cfg sessions resurrectable dirs) ∧
    (∀ t, SessionItem.resurrectableSession name t ∉
        combinedItems cfg sessions resurrectable dirs) := by
  have hpred : ∀ zd ∈ dirs,
      (decide (name = zd.session_name) ||
        isIncrementedSession cfg.session_separator name zd.session_name) = false := by
    intro zd hzd
    have := hnm zd hzd
    simp [this.1, this.2]
  constructor
  · intro d c hmem
    unfold combinedItems at hmem
    rcases List.mem_append.mp hmem with hmem | hmem
    · rcases List.mem_append.mp hmem with hmem | hmem
      · rcases List.mem_filterMap.mp hmem with ⟨s, _, hf⟩
        rcases Option.map_eq_some'.mp hf with ⟨zd, hfind, heq⟩
        have hname : s.name = name := by
          injection heq with h1 _ _
        have hzd := List.find?_some hfind
        have hmemzd := List.mem_of_find?_eq_some hfind
        rw [hname] at hzd
        rw [hpred zd hmemzd] at hzd
        exact absurd hzd (by simp)
      · split at hmem
        · rcases List.mem_filterMap.mp hmem with ⟨r, _, hf⟩
          rcases Option.map_eq_some'.mp hf with ⟨zd, _, heq⟩
          exact absurd heq (by simp)
        · exact absurd hmem (List.not_mem_nil _)
    · rcases List.mem_map.mp hmem with ⟨zd, _, heq⟩
      exact absurd heq (by simp)
  · intro t hmem
    unfold combinedItems at hmem
    rcases List.mem_append.mp hmem with hmem | hmem
    · rcases List.mem_append.mp hmem with hmem | hmem
      · rcases List.mem_filterMap.mp hmem with ⟨s, _, hf⟩
        rcases Option.map_eq_some'.mp hf with ⟨zd, _, heq⟩
        exact absurd heq (by simp)
      · split at hmem
        · rcases List.mem_filterMap.mp hmem with ⟨r, _, hf⟩
          rcases Option.map_eq_some'.mp hf with ⟨zd, hfind, heq⟩
          have hname : r.1 = name := by
            injection heq with h1 _
          have hzd := List.find?_some hfind
          have hmemzd := List.mem_of_find?_eq_some hfind
          rw [hname] at hzd
          rw [hpred zd hmemzd] at hzd
          exact absurd hzd (by simp)
        · exact absurd hmem (List.not_mem_nil _)
    · rcases List.mem_map.mp hmem with ⟨zd, _, heq⟩
      exact absurd heq (by simp)

/-- Witness for `c10_unmatched_sessions_omitted`: a live session
`ghost` matching neither `proj` nor any of its increments produces no
`ExistingSession` item. -/
theorem c10_unmatched_sessions_omitted_witness :
    (∀ zd ∈ [(⟨1, strL "/p", strL "proj"⟩ : ZoxideDirectory)],
      strL "ghost" ≠ zd.session_name ∧
        isIncrementedSession defaultConfig.session_separator (strL "ghost")
          zd.session_name = false) ∧
    SessionItem.existingSession (strL "ghost") (strL "/p") false ∉
      combinedItems defaultConfig [⟨strL "ghost", false⟩] []
        [⟨1, strL "/p", strL "proj"⟩] :=
  ⟨by decide,
    (c10_unmatched_sessions_omitted defaultConfig [⟨strL "ghost", false⟩] []
      [⟨1, strL "/p", strL "proj"⟩] (strL "ghost") (by decide)).1 (strL "/p") false⟩

end Reconciliation

section IncrementMatching

theorem parseU32_isSome_ne_nil (s : Str) (h : (parseU32 s).isSome = true) : s ≠ [] := by
  intro he
  subst he
  simp [parseU32] at h

/-- The matching predicate exactly as the specification words it: the
name is the base, then the separator, then a remainder that is a
positive integer with no extraneous characters (digits only, value
nonzero). -/
def specIsIncrementedName (sep n b : Str) : Prop :=
  ∃ rest, n = b ++ sep ++ rest ∧ rest ≠ [] ∧
    rest.all (fun c => c.isDigit) = true ∧ 0 < digitsToNat rest

/-- C6 (amended): `is_incremented_session` holds iff the name is the
base, the separator, and a remainder that parses as a Rust `u32`
(optional leading `+`, ASCII digits, value below `2 ^ 32`) — zero
included, leading `+` allowed, and out-of-range integers excluded. -/
theorem c6_incremented_iff_u32 (sep n b : Str) :
    isIncrementedSession sep n b = true ↔
      ∃ rest, n = b ++ sep ++ rest ∧ (parseU32 rest).isSome = true := by
  unfold isIncrementedSession
  constructor
  · intro h
    split at h
    · exact absurd h (by simp)
    · split at h
      · exact absurd h (by simp)
      · rename_i hlen hpre
        rw [not_not] at hpre
        obtain ⟨r, hr⟩ := List.isPrefixOf_iff_prefix.mp hpre
        rw [← hr, List.drop_left] at h
        dsimp only at h
        split at h
        · exact absurd h (by simp)
        · rename_i hpre2
          rw [not_not] at hpre2
          obtain ⟨rest, hrest⟩ := List.isPrefixOf_iff_prefix.mp hpre2
          rw [← hrest, List.drop_left] at h
          refine ⟨rest, ?_, ?_⟩
          · rw [List.append_assoc, hrest, hr]
          · rcases Bool.eq_false_or_eq_true ((parseU32 rest).isSome) with hx | hx
            · exact hx
            · rw [hx] at h
              simp at h
  · rintro ⟨rest, rfl, hsome⟩
    have hrne : rest ≠ [] := parseU32_isSome_ne_nil rest hsome
    have hpos := byteLen_pos rest hrne
    have hblen : byteLen (b ++ sep ++ rest) = byteLen b + byteLen sep + byteLen rest := by
      rw [byteLen_append, byteLen_append]
    rw [if_neg (by omega : ¬ byteLen (b ++ sep ++ rest) ≤ byteLen b)]
    have hpre : b.isPrefixOf (b ++ sep ++ rest) = true := by
      apply List.isPrefixOf_iff_prefix.mpr
      rw [List.append_assoc]
      exact List.prefix_append b (sep ++ rest)
    rw [if_neg (not_not_intro hpre)]
    have hd1 : (b ++ sep ++ rest).drop b.length = sep ++ rest := by
      rw [List.append_assoc, List.drop_left]
    rw [hd1]
    have hpre2 : sep.isPrefixOf (sep ++ rest) = true :=
      List.isPrefixOf_iff_prefix.mpr (List.prefix_append sep rest)
    rw [if_neg (not_not_intro hpre2)]
    rw [List.drop_left]
    simp [hsome, hrne]

/-- C6 (counterexample): `project.0` is accepted by the code's matching
predicate, yet `0` is not a positive integer, so the claimed
characterization fails. -/
theorem c6_counterexample :
    isIncrementedSession ['.'] ['p', 'r', 'o', 'j', 'e', 'c', 't', '.', '0']
        ['p', 'r', 'o', 'j', 'e', 'c', 't'] = true ∧
      ¬ specIsIncrementedName ['.'] ['p', 'r', 'o', 'j', 'e', 'c', 't', '.', '0']
        ['p', 'r', 'o', 'j', 'e', 'c', 't'] := by
  constructor
  · decide
  · rintro ⟨rest, heq, hne, hdig, hpos⟩
    have hrest : rest = ['0'] := by
      have h2 := heq
      simp at h2
      exact h2.symm
    subst hrest
    simp [digitsToNat] at hpos

end IncrementMatching

section IncrementResolver

theorem memStr_iff (x : Str) (l : List Str) : memStr x l = true ↔ x ∈ l := by
  simp only [memStr, List.any_eq_true, decide_eq_true_eq]
  exact ⟨fun ⟨a, ha, he⟩ => he ▸ ha, fun h => ⟨x, h, rfl⟩⟩

theorem find?_range'_eq_some (p : Nat → Bool) (s cnt n : Nat) (hsn : s ≤ n)
    (hn : n < s + cnt) (hbefore : ∀ m, s ≤ m → m < n → p m = false) (hp : p n = true) :
    (List.range' s cnt).find? p = some n := by
  induction cnt generalizing s with
  | zero => omega
  | succ k ih =>
    rw [List.range'_succ]
    rcases Nat.eq_or_lt_of_le hsn with he | hlt
    · subst he
      exact List.find?_cons_of_pos _ hp
    · rw [List.find?_cons_of_neg _ (by simp [hbefore s (Nat.le_refl s) hlt])]
      exact ih (s + 1) hlt (by omega) (fun m h1 h2 => hbefore m (by omega) h2)

/-- C7: `generate_incremented_name` returns the base unchanged when it
occurs in neither the live nor the recoverable name set; otherwise it
returns `base + separator + n` for the smallest `n` in `2..=1000` whose
candidate occurs in no live session name (recoverable names are not
consulted for the suffixed candidates). -/
theorem c7_incremented_name (sep : Str) (ss rs : List Str) (base : Str) :
    ((base ∉ ss ∧ base ∉ rs) →
      generateIncrementedName sep ss rs base = some base) ∧
    (∀ n, 2 ≤ n → n ≤ 1000 → (base ∈ ss ∨ base ∈ rs) →
      (base ++ sep ++ natToStr n) ∉ ss →
      (∀ m, 2 ≤ m → m < n → (base ++ sep ++ natToStr m) ∈ ss) →
      generateIncrementedName sep ss rs base = some (base ++ sep ++ natToStr n)) := by
  constructor
  · rintro ⟨h1, h2⟩
    have hm1 : memStr base ss = false := by
      rw [Bool.eq_false_iff]
      intro hc
      exact h1 ((memStr_iff base ss).mp hc)
    have hm2 : memStr base rs = false := by
      rw [Bool.eq_false_iff]
      intro hc
      exact h2 ((memStr_iff base rs).mp hc)
    simp [generateIncrementedName, hm1, hm2]
  · intro n h2n hn1000 hbase hnfree hbelow
    have hbe : (memStr base ss || memStr base rs) = true := by
      rcases hbase with hb | hb
      · simp [(memStr_iff base ss).mpr hb]
      · simp [(memStr_iff base rs).mpr hb]
    have hfind : (List.range' 2 999).find?
        (fun k => ! memStr (base ++ sep ++ natToStr k) ss) = some n := by
      apply find?_range'_eq_some _ _ _ _ h2n (by omega)
      · intro m hm2 hmn
        have hmem : memStr (base ++ sep ++ natToStr m) ss = true :=
          (memStr_iff _ ss).mpr (hbelow m hm2 hmn)
        rw [List.append_assoc] at hmem
        simp [hmem]
      · have hmem : memStr (base ++ sep ++ natToStr n) ss = false := by
          rw [Bool.eq_false_iff]
          intro hc
          exact hnfree ((memStr_iff _ ss).mp hc)
        rw [List.append_assoc] at hmem
        simp [hmem]
    unfold generateIncrementedName
    rw [if_neg (not_not_intro hbe), hfind]

/-- Witness for `c7_incremented_name`: the specification's scenario —
live names `project` and `project.2` with separator `.` yield
`project.3`. -/
theorem c7_incremented_name_witness :
    generateIncrementedName (strL ".") [strL "project", strL "project.2"] []
      (strL "project") = some (strL "project.3") := by
  have h := (c7_incremented_name (strL ".") [strL "project", strL "project.2"] []
      (strL "project")).2 3 (by decide) (by decide) (Or.inl (by decide)) (by decide)
      (fun m hm2 hm3 => by
        have hm : m = 2 := by omega
        subst hm
        decide)
  rw [h]
  decide

end IncrementResolver

section Totality

/-- C3: the naming pipeline is not total.  Two candidates sharing the
39-byte basename `€a-€a-€a-€a-€a-€a-€a-€a` force smart truncation; the
abbreviated lone segment `€-€-€-€-€-€-€-€` is 31 bytes, and the hard
truncation to 29 bytes falls inside the `€` that starts at byte 28 —
`String::truncate` panics there (modelled as `none`). -/
theorem c3_truncation_panics :
    resolvedName defaultConfig
      [⟨1, strL "/p/€a-€a-€a-€a-€a-€a-€a-€a", []⟩,
        ⟨1, strL "/q/€a-€a-€a-€a-€a-€a-€a-€a", []⟩] 0 = none := by
  decide

end Totality

section RankingSort

theorem mem_insertRanked (d x : ZoxideDirectory) (l : List ZoxideDirectory) :
    x ∈ insertRanked d l ↔ x = d ∨ x ∈ l := by
  induction l with
  | nil => simp [insertRanked]
  | cons e t ih =>
    unfold insertRanked
    split
    · simp only [List.mem_cons, ih]
      tauto
    · simp only [List.mem_cons]

theorem insertRanked_pairwise (d : ZoxideDirectory) (l : List ZoxideDirectory)
    (h : l.Pairwise (fun a b => b.ranking ≤ a.ranking)) :
    (insertRanked d l).Pairwise (fun a b => b.ranking ≤ a.ranking) := by
  induction l with
  | nil => simp [insertRanked]
  | cons e t ih =>
    rcases List.pairwise_cons.mp h with ⟨he, ht⟩
    unfold insertRanked
    split
    · rename_i hlt
      apply List.pairwise_cons.mpr
      refine ⟨?_, ih ht⟩
      intro x hx
      rcases (mem_insertRanked d x t).mp hx with rfl | hx
      · exact le_of_lt hlt
      · exact he x hx
    · rename_i hnlt
      apply List.pairwise_cons.mpr
      refine ⟨?_, h⟩
      intro x hx
      rcases List.mem_cons.mp hx with rfl | hx
      · exact le_of_not_lt hnlt
      · exact le_trans (he x hx) (le_of_not_lt hnlt)

theorem sortByRanking_pairwise (l : List ZoxideDirectory) :
    (sortByRanking l).Pairwise (fun a b => b.ranking ≤ a.ranking) := by
  induction l with
  | nil => simp [sortByRanking]
  | cons d t ih => exact insertRanked_pairwise d _ ih

theorem filter_insertRanked (q : ℚ) (d : ZoxideDirectory) (l : List ZoxideDirectory) :
    (insertRanked d l).filter (fun e => decide (e.ranking = q)) =
      (if d.ranking = q then [d] else []) ++
        l.filter (fun e => decide (e.ranking = q)) := by
  induction l with
  | nil =>
    by_cases hd : d.ranking = q <;> simp [insertRanked, List.filter_cons, hd]
  | cons e t ih =>
    unfold insertRanked
    split
    · rename_i hlt
      by_cases hez : e.ranking = q
      · have hdz : ¬ d.ranking = q := by
          rw [hez] at hlt
          exact ne_of_lt hlt
        simp [List.filter_cons, hez, hdz, ih]
      · simp [List.filter_cons, hez, ih]
    · by_cases hd : d.ranking = q <;> simp [List.filter_cons, hd]

theorem sortByRanking_filter (q : ℚ) (l : List ZoxideDirectory) :
    (sortByRanking l).filter (fun e => decide (e.ranking = q)) =
      l.filter (fun e => decide (e.ranking = q)) := by
  induction l with
  | nil => simp [sortByRanking]
  | cons d t ih =>
    rw [sortByRanking, filter_insertRanked, ih]
    by_cases hd : d.ranking = q <;> simp [List.filter_cons, hd]

/-- The order the specification asserts after a refresh: ranking
descending, ties between equal rankings broken by path ascending. -/
def specTieBreakOrder (a b : ZoxideDirectory) : Prop :=
  b.ranking < a.ranking ∨
    (a.ranking = b.ranking ∧ (strLtB a.directory b.directory = true ∨ a.directory = b.directory))

instance : DecidableRel specTieBreakOrder := fun a b => by
  unfold specTieBreakOrder
  infer_instance

/-- C9 (amended): on a refresh, every candidate's `session_name` is
assigned on the pre-sort candidate list, and the output is that list
sorted by ranking descending with ties preserving the input (encounter)
order — captured by the per-ranking filter equality, which fixes the
relative order of equal-ranking elements to the pre-sort order. -/
theorem c9_sorted_stable (cfg : Config) (out : Str) (dirs : List ZoxideDirectory)
    (h : processZoxideOutput cfg out = some dirs) :
    (∃ named, assignSmartNames cfg (parseZoxideOutput out) = some named ∧
        dirs = sortByRanking named ∧
        ∀ q : ℚ, dirs.filter (fun d => decide (d.ranking = q)) =
          named.filter (fun d => decide (d.ranking = q))) ∧
    dirs.Pairwise (fun a b => b.ranking ≤ a.ranking) := by
  unfold processZoxideOutput at h
  rcases Option.map_eq_some'.mp h with ⟨named, hn, rfl⟩
  exact ⟨⟨named, hn, rfl, fun q => sortByRanking_filter q named⟩,
    sortByRanking_pairwise named⟩

/-- Witness for `c9_sorted_stable` on the refresh input `2 /b`, `1 /a`. -/
theorem c9_sorted_stable_witness :
    processZoxideOutput defaultConfig (strL "2 /b\n1 /a") =
      some [⟨2, strL "/b", strL "b"⟩, ⟨1, strL "/a", strL "a"⟩] ∧
    List.Pairwise (fun a b => b.ranking ≤ a.ranking)
      [(⟨2, strL "/b", strL "b"⟩ : ZoxideDirectory), ⟨1, strL "/a", strL "a"⟩] :=
  ⟨by decide,
    (c9_sorted_stable defaultConfig (strL "2 /b\n1 /a")
      [⟨2, strL "/b", strL "b"⟩, ⟨1, strL "/a", strL "a"⟩] (by decide)).2⟩

/-- C9 (counterexample): with equal rankings, input `1 /b` then `1 /a`
comes out in input order (`/b` first), not path-ascending order as the
claim requires (`/a` < `/b`). -/
theorem c9_counterexample :
    processZoxideOutput defaultConfig (strL "1 /b\n1 /a") =
      some [⟨1, strL "/b", strL "b"⟩, ⟨1, strL "/a", strL "a"⟩] ∧
    ¬ List.Pairwise specTieBreakOrder
      [(⟨1, strL "/b", strL "b"⟩ : ZoxideDirectory), ⟨1, strL "/a", strL "a"⟩] := by
  constructor
  · decide
  · decide

end RankingSort

section SplitJoin

theorem splitOnPredC_ne_nil (p : Char → Bool) (s : Str) : splitOnPredC p s ≠ [] := by
  cases s with
  | nil => simp [splitOnPredC]
  | cons a t =>
    unfold splitOnPredC
    split
    · simp
    · split <;> simp

theorem mem_of_mem_splitOnPredC (p : Char → Bool) (s t : Str) (c : Char)
    (ht : t ∈ splitOnPredC p s) (hc : c ∈ t) : c ∈ s := by
  induction s generalizing t with
  | nil =>
    simp [splitOnPredC] at ht
    subst ht
    exact absurd hc (List.not_mem_nil c)
  | cons a r ih =>
    unfold splitOnPredC at ht
    split at ht
    · rcases List.mem_cons.mp ht with rfl | ht
      · exact absurd hc (List.not_mem_nil c)
      · exact List.mem_cons_of_mem a (ih t ht hc)
    · rcases hsp : splitOnPredC p r with _ | ⟨s0, rest⟩
      · exact absurd hsp (splitOnPredC_ne_nil p r)
      · rw [hsp] at ht
        rcases List.mem_cons.mp ht with rfl | ht
        · rcases List.mem_cons.mp hc with rfl | hc
          · exact List.mem_cons_self c r
          · have hs0 : s0 ∈ splitOnPredC p r := by
              rw [hsp]
              exact List.mem_cons_self s0 rest
            exact List.mem_cons_of_mem a (ih s0 hs0 hc)
        · have htr : t ∈ splitOnPredC p r := by
            rw [hsp]
            exact List.mem_cons_of_mem s0 ht
          exact List.mem_cons_of_mem a (ih t htr hc)

theorem splitOnPredC_of_no_match (p : Char → Bool) (s : Str)
    (hc : ∀ x ∈ s, p x = false) : splitOnPredC p s = [s] := by
  induction s with
  | nil => rfl
  | cons a t ih =>
    unfold splitOnPredC
    rw [if_neg (by simp [hc a (List.mem_cons_self a t)])]
    rw [ih (fun x hx => hc x (List.mem_cons_of_mem a hx))]

theorem splitOnPredC_append (p : Char → Bool) (s t : Str) (b : Char)
    (hc : ∀ x ∈ s, p x = false) (hb : p b = true) :
    splitOnPredC p (s ++ b :: t) = s :: splitOnPredC p t := by
  induction s with
  | nil =>
    simp only [List.nil_append]
    conv_lhs => rw [splitOnPredC]
    rw [if_pos hb]
  | cons a s' ih =>
    simp only [List.cons_append]
    have hih := ih (fun x hx => hc x (List.mem_cons_of_mem a hx))
    conv_lhs => rw [splitOnPredC]
    rw [if_neg (by simp [hc a (List.mem_cons_self a s')]), hih]

theorem splitChar_joinSep (c : Char) (xs : List Str) (hxs : xs ≠ [])
    (h : ∀ s ∈ xs, c ∉ s) : splitChar c (joinSep [c] xs) = xs := by
  induction xs with
  | nil => exact absurd rfl hxs
  | cons x t ih =>
    have hx : ∀ y ∈ x, (fun z => decide (z = c)) y = false := by
      intro y hy
      simp only [decide_eq_false_iff_not]
      intro he
      exact h x (List.mem_cons_self x t) (he ▸ hy)
    cases t with
    | nil => exact splitOnPredC_of_no_match _ x hx
    | cons y r =>
      have hjoin : joinSep [c] (x :: y :: r) = x ++ c :: joinSep [c] (y :: r) := by
        rw [joinSep, List.append_assoc]
        rfl
      rw [hjoin]
      unfold splitChar
      rw [splitOnPredC_append _ x _ c hx (by simp)]
      have := ih (by simp) (fun s hs => h s (List.mem_cons_of_mem x hs))
      unfold splitChar at this
      rw [this]

theorem joinSep_single_inj (c : Char) (xs ys : List Str) (hx : xs ≠ []) (hy : ys ≠ [])
    (hcx : ∀ s ∈ xs, c ∉ s) (hcy : ∀ s ∈ ys, c ∉ s)
    (h : joinSep [c] xs = joinSep [c] ys) : xs = ys := by
  have := congrArg (splitChar c) h
  rwa [splitChar_joinSep c xs hx hcx, splitChar_joinSep c ys hy hcy] at this

end SplitJoin

section SegmentLemmas

theorem takeLast_length (l : List Str) (k : Nat) (h : k ≤ l.length) :
    (takeLast l k).length = k := by
  simp [takeLast]
  omega

theorem takeLast_suffix (l : List Str) (k : Nat) : takeLast l k <:+ l :=
  List.drop_suffix _ _

theorem takeLast_self (l : List Str) : takeLast l l.length = l := by
  simp [takeLast]

theorem strip_slash_suffix (l : Str) :
    (if l.head? = some '/' then l.tail else l) <:+ l := by
  split
  · exact List.tail_suffix l
  · exact List.suffix_refl l

theorem normalizePath_suffix (bps : List Str) (p : Str) : normalizePath bps p <:+ p := by
  unfold normalizePath
  split
  · exact List.suffix_refl p
  · dsimp only
    split
    · exact List.suffix_refl p
    · split
      · exact List.suffix_refl p
      · split
        · split
          · exact List.IsSuffix.trans (List.tail_suffix _) (List.drop_suffix _ _)
          · exact List.suffix_refl p
        · split
          · exact List.drop_suffix _ _
          · exact List.suffix_refl p

theorem mem_segsOf_ne_nil (cfg : Config) (p s : Str) (hs : s ∈ segsOf cfg p) : s ≠ [] := by
  unfold segsOf at hs
  have := List.of_mem_filter hs
  simpa using this

theorem not_mem_of_mem_segsOf (cfg : Config) (p s : Str) (c : Char)
    (hs : s ∈ segsOf cfg p) (hc : c ∉ p) : c ∉ s := by
  unfold segsOf splitChar at hs
  have hmem := List.mem_of_mem_filter hs
  intro hcs
  exact hc (List.IsSuffix.subset (normalizePath_suffix cfg.base_paths p)
    (mem_of_mem_splitOnPredC _ _ s c hmem hcs))

end SegmentLemmas

section GroupLemmas

theorem mem_groupIndices (dirs : List ZoxideDirectory) (i j : Nat) :
    j ∈ groupIndices dirs i ↔ j < dirs.length ∧
      fileName (dirs.getD j default).directory = fileName (dirs.getD i default).directory := by
  unfold groupIndices
  rw [List.mem_filter, List.mem_range]
  simp

theorem groupIndices_eq (dirs : List ZoxideDirectory) (i j : Nat)
    (hgrp : fileName (dirs.getD i default).directory =
      fileName (dirs.getD j default).directory) :
    groupIndices dirs i = groupIndices dirs j := by
  unfold groupIndices
  apply List.filter_congr
  intro k _
  rw [hgrp]

theorem length_ne_one_of_two_mem {α : Type} (l : List α) (a b : α)
    (ha : a ∈ l) (hb : b ∈ l) (hab : a ≠ b) : l.length ≠ 1 := by
  cases l with
  | nil => simp at ha
  | cons x t =>
    cases t with
    | nil =>
      rcases List.mem_singleton.mp ha with rfl
      rcases List.mem_singleton.mp hb with rfl
      exact absurd rfl hab
    | cons y r => simp

theorem find?_eq_some_of_exists {α : Type} (p : α → Bool) (l : List α)
    (h : ∃ x, x ∈ l ∧ p x = true) :
    ∃ y, l.find? p = some y ∧ p y = true ∧ y ∈ l := by
  rcases hf : l.find? p with _ | y
  · rcases h with ⟨x, hx, hpx⟩
    rw [List.find?_eq_none] at hf
    exact absurd hpx (by simp [hf x hx])
  · exact ⟨y, rfl, List.find?_some hf, List.mem_of_find?_eq_some hf⟩

end GroupLemmas

section ContextSearch

theorem acceptedK_spec (cfg : Config) (dirs : List ZoxideDirectory) (g : List Nat)
    (path : Str) (hne : segsOf cfg path ≠ [])
    (hU : isUniqueAt cfg dirs g path (segsOf cfg path).length = true) :
    (if isNestedIn cfg path dirs then min 3 (segsOf cfg path).length else 1) ≤
        acceptedK cfg dirs g path ∧
      acceptedK cfg dirs g path ≤ (segsOf cfg path).length ∧
      isUniqueAt cfg dirs g path (acceptedK cfg dirs g path) = true := by
  have hlen1 : 1 ≤ (segsOf cfg path).length := List.length_pos.mpr hne
  have hreq0le : (if isNestedIn cfg path dirs then min 3 (segsOf cfg path).length else 1) ≤
      (segsOf cfg path).length := by
    split <;> omega
  unfold acceptedK
  dsimp only
  have hmem : (segsOf cfg path).length ∈
      List.range' (if isNestedIn cfg path dirs then min 3 (segsOf cfg path).length else 1)
        ((segsOf cfg path).length + 1 -
          (if isNestedIn cfg path dirs then min 3 (segsOf cfg path).length else 1)) := by
    rw [List.mem_range'_1]
    omega
  rcases find?_eq_some_of_exists _ _ ⟨(segsOf cfg path).length, hmem, hU⟩ with
    ⟨k, hf, hpk, hkmem⟩
  rw [hf]
  dsimp only
  have hb := List.mem_range'_1.mp hkmem
  exact ⟨by omega, by omega, hpk⟩

theorem gcan_eval (cfg : Config) (dirs : List ZoxideDirectory) (g : List Nat) (path : Str)
    (hne : segsOf cfg path ≠ [])
    (hU : isUniqueAt cfg dirs g path (segsOf cfg path).length = true)
    (hfit : byteLen (joinSep cfg.session_separator (segsOf cfg path)) ≤ 29) :
    generateContextAwareName cfg path dirs g =
      some (joinSep cfg.session_separator
        (takeLast (segsOf cfg path) (acceptedK cfg dirs g path))) := by
  obtain ⟨hk0, hklen, hkU⟩ := acceptedK_spec cfg dirs g path hne hU
  have hlen1 : 1 ≤ (segsOf cfg path).length := List.length_pos.mpr hne
  unfold generateContextAwareName
  dsimp only
  rw [if_neg hne]
  have hreq2 : (if isNestedIn cfg path dirs = true ∧ acceptedK cfg dirs g path < 2 then
      min 2 (segsOf cfg path).length else acceptedK cfg dirs g path) =
      acceptedK cfg dirs g path := by
    split
    · rename_i hcond
      rcases hcond with ⟨hnest, hlt2⟩
      rw [if_pos hnest] at hk0
      omega
    · rfl
  rw [hreq2]
  rw [if_neg ?_]
  have hdrop := byteLen_joinSep_drop_le cfg.session_separator (segsOf cfg path)
    ((segsOf cfg path).length - acceptedK cfg dirs g path)
  unfold takeLast
  omega

end ContextSearch

section GroupUniqueness

/-- Any member of the conflict group passes the uniqueness check at its
own full segment count, given that no group member's segment sequence is
a suffix of another's (separator a single non-occurring character). -/
theorem isUniqueAt_full (cfg : Config) (c : Char) (dirs : List ZoxideDirectory) (i : Nat)
    (hsep : cfg.session_separator = [c])
    (hc : ∀ m ∈ groupIndices dirs i, c ∉ (dirs.getD m default).directory)
    (hsuf : ∀ a ∈ groupIndices dirs i, ∀ b ∈ groupIndices dirs i, a ≠ b →
      ¬ (segsOf cfg (dirs.getD a default).directory <:+
          segsOf cfg (dirs.getD b default).directory))
    (a : Nat) (hag : a ∈ groupIndices dirs i)
    (hnea : segsOf cfg (dirs.getD a default).directory ≠ []) :
    isUniqueAt cfg dirs (groupIndices dirs i) (dirs.getD a default).directory
      (segsOf cfg (dirs.getD a default).directory).length = true := by
  unfold isUniqueAt
  rw [List.all_eq_true]
  intro m hm
  simp only [Bool.or_eq_true, decide_eq_true_eq]
  by_cases hpm : (dirs.getD m default).directory = (dirs.getD a default).directory
  · exact Or.inl hpm
  · right
    by_cases hlenm : (segsOf cfg (dirs.getD m default).directory).length <
        (segsOf cfg (dirs.getD a default).directory).length
    · exact Or.inl hlenm
    · right
      intro hjoin
      have hma : m ≠ a := fun h => hpm (h ▸ rfl)
      have hta : takeLast (segsOf cfg (dirs.getD a default).directory)
          (segsOf cfg (dirs.getD a default).directory).length =
          segsOf cfg (dirs.getD a default).directory :=
        takeLast_self _
      have htl : (takeLast (segsOf cfg (dirs.getD m default).directory)
          (segsOf cfg (dirs.getD a default).directory).length).length =
          (segsOf cfg (dirs.getD a default).directory).length :=
        takeLast_length _ _ (by omega)
      have hnetm : takeLast (segsOf cfg (dirs.getD m default).directory)
          (segsOf cfg (dirs.getD a default).directory).length ≠ [] := by
        intro h0
        rw [h0] at htl
        simp only [List.length_nil] at htl
        have h1 : 0 < (segsOf cfg (dirs.getD a default).directory).length :=
          List.length_pos.mpr hnea
        omega
      have hcfm : ∀ s ∈ takeLast (segsOf cfg (dirs.getD m default).directory)
          (segsOf cfg (dirs.getD a default).directory).length, c ∉ s := fun s hs =>
        not_mem_of_mem_segsOf cfg _ s c
          (List.IsSuffix.subset (takeLast_suffix _ _) hs) (hc m hm)
      have hcfa : ∀ s ∈ segsOf cfg (dirs.getD a default).directory, c ∉ s := fun s hs =>
        not_mem_of_mem_segsOf cfg _ s c hs (hc a hag)
      have hlist : takeLast (segsOf cfg (dirs.getD m default).directory)
          (segsOf cfg (dirs.getD a default).directory).length =
          segsOf cfg (dirs.getD a default).directory := by
        rw [hta] at hjoin
        rw [hsep] at hjoin
        exact joinSep_single_inj c _ _ hnetm hnea hcfm hcfa hjoin
      have : segsOf cfg (dirs.getD a default).directory <:+
          segsOf cfg (dirs.getD m default).directory := by
        rw [← hlist]
        exact takeLast_suffix _ _
      exact hsuf a hag m hm (Ne.symm hma) this

/-- C2 (amended): within a shared-basename conflict group, the resolver
assigns pairwise-distinct session names provided (a) the separator is a
single character occurring in no member's path, (b) no member's
normalized segment sequence is a suffix of another member's (distinct
paths included), and (c) both members' full normalized paths joined by
the separator fit in the 29-byte budget, so no truncation occurs. -/
theorem c2_group_names_distinct (cfg : Config) (c : Char) (dirs : List ZoxideDirectory)
    (i j : Nat)
    (hsep : cfg.session_separator = [c])
    (hi : i < dirs.length) (hj : j < dirs.length) (hij : i ≠ j)
    (hgrp : fileName (dirs.getD i default).directory =
      fileName (dirs.getD j default).directory)
    (hdij : (dirs.getD i default).directory ≠ (dirs.getD j default).directory)
    (hc : ∀ m ∈ groupIndices dirs i, c ∉ (dirs.getD m default).directory)
    (hsuf : ∀ a ∈ groupIndices dirs i, ∀ b ∈ groupIndices dirs i, a ≠ b →
      ¬ (segsOf cfg (dirs.getD a default).directory <:+
          segsOf cfg (dirs.getD b default).directory))
    (hleni : byteLen (joinSep cfg.session_separator
        (segsOf cfg (dirs.getD i default).directory)) ≤ 29)
    (hlenj : byteLen (joinSep cfg.session_separator
        (segsOf cfg (dirs.getD j default).directory)) ≤ 29) :
    resolvedName cfg dirs i ≠ resolvedName cfg dirs j := by
  intro heq
  have hig : i ∈ groupIndices dirs i := (mem_groupIndices dirs i i).mpr ⟨hi, rfl⟩
  have hjg : j ∈ groupIndices dirs i := (mem_groupIndices dirs i j).mpr ⟨hj, hgrp.symm⟩
  have hlen_ne : (groupIndices dirs i).length ≠ 1 :=
    length_ne_one_of_two_mem _ i j hig hjg hij
  have hsegsi_ne : segsOf cfg (dirs.getD i default).directory ≠ [] := by
    intro h0
    exact hsuf i hig j hjg hij (by rw [h0]; exact List.nil_suffix)
  have hsegsj_ne : segsOf cfg (dirs.getD j default).directory ≠ [] := by
    intro h0
    exact hsuf j hjg i hig (Ne.symm hij) (by rw [h0]; exact List.nil_suffix)
  have hUi := isUniqueAt_full cfg c dirs i hsep hc hsuf i hig hsegsi_ne
  have hUj := isUniqueAt_full cfg c dirs i hsep hc hsuf j hjg hsegsj_ne
  obtain ⟨hki0, hkilen, hkiU⟩ :=
    acceptedK_spec cfg dirs (groupIndices dirs i) (dirs.getD i default).directory
      hsegsi_ne hUi
  obtain ⟨hkj0, hkjlen, hkjU⟩ :=
    acceptedK_spec cfg dirs (groupIndices dirs i) (dirs.getD j default).directory
      hsegsj_ne hUj
  have hevali : resolvedName cfg dirs i =
      some (joinSep cfg.session_separator
        (takeLast (segsOf cfg (dirs.getD i default).directory)
          (acceptedK cfg dirs (groupIndices dirs i) (dirs.getD i default).directory))) := by
    unfold resolvedName
    dsimp only
    rw [if_neg hlen_ne]
    exact gcan_eval cfg dirs (groupIndices dirs i) _ hsegsi_ne hUi hleni
  have hevalj : resolvedName cfg dirs j =
      some (joinSep cfg.session_separator
        (takeLast (segsOf cfg (dirs.getD j default).directory)
          (acceptedK cfg dirs (groupIndices dirs i) (dirs.getD j default).directory))) := by
    unfold resolvedName
    dsimp only
    rw [groupIndices_eq dirs j i hgrp.symm]
    rw [if_neg hlen_ne]
    exact gcan_eval cfg dirs (groupIndices dirs i) _ hsegsj_ne hUj hlenj
  rw [hevali, hevalj] at heq
  injection heq with heq
  have hki1 : 1 ≤ acceptedK cfg dirs (groupIndices dirs i) (dirs.getD i default).directory := by
    have h1 : 1 ≤ (segsOf cfg (dirs.getD i default).directory).length :=
      List.length_pos.mpr hsegsi_ne
    have h2 : (1 : Nat) ≤ (if isNestedIn cfg (dirs.getD i default).directory dirs then
        min 3 (segsOf cfg (dirs.getD i default).directory).length else 1) := by
      split <;> omega
    omega
  have hkj1 : 1 ≤ acceptedK cfg dirs (groupIndices dirs i) (dirs.getD j default).directory := by
    have h1 : 1 ≤ (segsOf cfg (dirs.getD j default).directory).length :=
      List.length_pos.mpr hsegsj_ne
    have h2 : (1 : Nat) ≤ (if isNestedIn cfg (dirs.getD j default).directory dirs then
        min 3 (segsOf cfg (dirs.getD j default).directory).length else 1) := by
      split <;> omega
    omega
  have hti := takeLast_length (segsOf cfg (dirs.getD i default).directory) _ hkilen
  have htj := takeLast_length (segsOf cfg (dirs.getD j default).directory) _ hkjlen
  have hne1 : takeLast (segsOf cfg (dirs.getD i default).directory)
      (acceptedK cfg dirs (groupIndices dirs i) (dirs.getD i default).directory) ≠ [] := by
    intro h0
    rw [h0] at hti
    simp only [List.length_nil] at hti
    omega
  have hne2 : takeLast (segsOf cfg (dirs.getD j default).directory)
      (acceptedK cfg dirs (groupIndices dirs i) (dirs.getD j default).directory) ≠ [] := by
    intro h0
    rw [h0] at htj
    simp only [List.length_nil] at htj
    omega
  have hcf1 : ∀ s ∈ takeLast (segsOf cfg (dirs.getD i default).directory)
      (acceptedK cfg dirs (groupIndices dirs i) (dirs.getD i default).directory), c ∉ s :=
    fun s hs => not_mem_of_mem_segsOf cfg _ s c
      (List.IsSuffix.subset (takeLast_suffix _ _) hs) (hc i hig)
  have hcf2 : ∀ s ∈ takeLast (segsOf cfg (dirs.getD j default).directory)
      (acceptedK cfg dirs (groupIndices dirs i) (dirs.getD j default).directory), c ∉ s :=
    fun s hs => not_mem_of_mem_segsOf cfg _ s c
      (List.IsSuffix.subset (takeLast_suffix _ _) hs) (hc j hjg)
  have hlists : takeLast (segsOf cfg (dirs.getD i default).directory)
      (acceptedK cfg dirs (groupIndices dirs i) (dirs.getD i default).directory) =
      takeLast (segsOf cfg (dirs.getD j default).directory)
        (acceptedK cfg dirs (groupIndices dirs i) (dirs.getD j default).directory) := by
    rw [hsep] at heq
    exact joinSep_single_inj c _ _ hne1 hne2 hcf1 hcf2 heq
  have hkeq : acceptedK cfg dirs (groupIndices dirs i) (dirs.getD i default).directory =
      acceptedK cfg dirs (groupIndices dirs i) (dirs.getD j default).directory := by
    have := congrArg List.length hlists
    rw [hti, htj] at this
    exact this
  unfold isUniqueAt at hkiU
  rw [List.all_eq_true] at hkiU
  have hj' := hkiU j hjg
  dsimp only at hj'
  rw [Bool.or_eq_true, Bool.or_eq_true] at hj'
  rcases hj' with h1 | h2 | h3
  · exact hdij (of_decide_eq_true h1).symm
  · have := of_decide_eq_true h2
    omega
  · have hne3 := of_decide_eq_true h3
    apply hne3
    rw [← hkeq] at heq
    exact heq.symm

/-- Witness for `c2_group_names_distinct`: the specification's own
scenario — `/work/api` and `/personal/api` share the basename `api` and
receive distinct names (`work.api` and `personal.api`). -/
theorem c2_group_names_distinct_witness :
    resolvedName defaultConfig
        [⟨1, strL "/work/api", []⟩, ⟨1, strL "/personal/api", []⟩] 0 ≠
      resolvedName defaultConfig
        [⟨1, strL "/work/api", []⟩, ⟨1, strL "/personal/api", []⟩] 1 :=
  c2_group_names_distinct defaultConfig '.'
    [⟨1, strL "/work/api", []⟩, ⟨1, strL "/personal/api", []⟩] 0 1
    (by decide) (by decide) (by decide) (by decide) (by decide) (by decide)
    (by decide) (by decide) (by decide) (by decide)

/-- C2 (counterexample): candidates `/x`, `/a/x` and `/b/a/x` all share
the basename `x`, yet the resolver names the first two both `x`: for
`/a/x` every context length collides (its segments are a suffix of
`/b/a/x`'s), and the loop then falls back to a single segment rather
than the full path. -/
theorem c2_counterexample :
    resolvedName defaultConfig
        [⟨1, strL "/x", []⟩, ⟨1, strL "/a/x", []⟩, ⟨1, strL "/b/a/x", []⟩] 0 =
      some (strL "x") ∧
    resolvedName defaultConfig
        [⟨1, strL "/x", []⟩, ⟨1, strL "/a/x", []⟩, ⟨1, strL "/b/a/x", []⟩] 1 =
      some (strL "x") ∧
    fileName (strL "/x") = fileName (strL "/a/x") ∧
    strL "/x" ≠ strL "/a/x" := by
  refine ⟨by decide, by decide, by decide, by decide⟩

end GroupUniqueness

end Zsm
